import Mathlib

/-!
Shallow embedding of `train_textual_inversion.py` (kohya_ss textual-inversion
trainer): the weight codec (`save_weights` / `load_weights`), the token
registration block of `train`, the initializer-word embedding copy, the
per-step embedding guard, and the epoch/step loop counters.
-/

namespace TextualInversion

/-! ## Data model -/

/-- A tensor, modelled as its shape (list of dimension sizes, as returned by
`emb.size()`) together with its flat data.  Values are integers standing in
for the raw bit patterns of the stored numbers. -/
structure Tensor where
  shape : List Nat
  data : List Int
deriving DecidableEq

/-- An embedding-matrix row. -/
abbrev Row := List Int

/-- A deserialized Python object as `torch.load` can produce it: a tensor, a
dict (association list in insertion order, mirroring Python dict iteration
order), an object carrying a `_parameters` dict (old `ParameterDict`), or any
other object (no `values()` method, no `_parameters` attribute). -/
inductive PyObj where
  | tensor (t : Tensor)
  | pdict (entries : List (String × PyObj))
  | paramContainer (params : List (String × PyObj))
  | otherObj

/-- Content of a weight file on disk: either a safetensors archive (flat
mapping from names to tensors, as `safetensors.torch.load_file` returns it)
or a pickled Python object written by `torch.save`. -/
inductive FileContent where
  | safetensorsArchive (entries : List (String × Tensor))
  | torchSerialized (obj : PyObj)

/-- A weight file: the extension of its path (`os.path.splitext(file)[1]`)
and its content, `none` when no file exists at the path. -/
structure WeightFile where
  ext : String
  content : Option FileContent

/-- The ways `load_weights` can fail, one constructor per distinct Python
exception site: missing file (`FileNotFoundError` from the open), a file in
the wrong container format for its extension, the `ValueError` raised when
the payload is not a dict, an `AttributeError`/`RuntimeError` when the
descended payload has no usable `values()`, `StopIteration` on an empty
mapping, and the `ValueError` raised when the first value is not a tensor. -/
inductive LoadErr where
  | fileNotFound
  | formatMismatch
  | notDict
  | noValuesMethod
  | emptyMapping
  | notTensor
deriving DecidableEq

/-- The failure of the `num_added_tokens == args.num_vectors_per_token`
assertion in `train`: the token-conflict error. -/
inductive RegErr where
  | tokenConflict
deriving DecidableEq

/-! ## Weight codec -/

/-- The extension string that selects the safetensors codec. -/
def safetensorsExt : String := ".safetensors"

/-- The legacy nesting key checked by `load_weights`. -/
def stringToParamKey : String := "string_to_param"

/-- The single logical key used by `save_weights`. -/
def embParamsKey : String := "emb_params"

/-- `emb.unsqueeze(0)` applied when `len(emb.size()) == 1`: promote a rank-1
tensor to rank 2 by prepending a dimension of size 1. -/
def promoteRank1 (t : Tensor) : Tensor :=
  if t.shape.length = 1 then ⟨1 :: t.shape, t.data⟩ else t

/-- `iter(data.values())`: the list of values of a dict, in iteration order;
a `ParameterDict`-like object also supports `values()`; a tensor or any other
object does not. -/
def pyValues : PyObj → Except LoadErr (List PyObj)
  | .pdict entries => .ok (entries.map (fun p => p.2))
  | .paramContainer ps => .ok (ps.map (fun p => p.2))
  | .tensor _ => .error .noValuesMethod
  | .otherObj => .error .noValuesMethod

/-- The legacy-format descent of `load_weights`: if `"string_to_param" in
data` then `data = data["string_to_param"]`, and if that object has a
`_parameters` attribute then `data = data._parameters`. -/
def extractLegacy (entries : List (String × PyObj)) : PyObj :=
  match entries.lookup stringToParamKey with
  | none => .pdict entries
  | some inner =>
    match inner with
    | .paramContainer ps => .pdict ps
    | x => x

/-- The common tail of `load_weights`: `emb = next(iter(data.values()))`,
the type check `type(emb) != torch.Tensor`, and the rank-1 promotion. -/
def takeFirstTensor (data : PyObj) : Except LoadErr Tensor :=
  match pyValues data with
  | .error e => .error e
  | .ok [] => .error .emptyMapping
  | .ok (v :: _) =>
    match v with
    | .tensor t => .ok (promoteRank1 t)
    | _ => .error .notTensor

/-- `load_weights(file)`: dispatch on the extension; the safetensors branch
loads a flat tensor mapping, the other branch deserializes with `torch.load`,
rejects non-dict payloads, descends through the legacy `string_to_param`
nesting, then takes the first value, checks it is a tensor and promotes
rank-1 to rank 2. -/
def load_weights (f : WeightFile) : Except LoadErr Tensor :=
  match f.content with
  | none => .error .fileNotFound
  | some c =>
    if f.ext = safetensorsExt then
      match c with
      | .safetensorsArchive entries =>
        takeFirstTensor (.pdict (entries.map (fun p => (p.1, .tensor p.2))))
      | .torchSerialized _ => .error .formatMismatch
    else
      match c with
      | .safetensorsArchive _ => .error .formatMismatch
      | .torchSerialized obj =>
        match obj with
        | .pdict entries => takeFirstTensor (extractLegacy entries)
        | _ => .error .notDict

/-- The dtype cast of `save_weights`: `v.detach().clone().to("cpu").to(
save_dtype)` when a save dtype is configured, identity otherwise.  The cast
is modelled as an arbitrary elementwise value map, which preserves shape. -/
def applyDtype (dt : Option (Int → Int)) (t : Tensor) : Tensor :=
  match dt with
  | none => t
  | some f => ⟨t.shape, t.data.map f⟩

/-- `save_weights(file, updated_embs, save_dtype)`: build the state dict
`{"emb_params": updated_embs}`, cast it to the save dtype when one is given,
and write it with the codec selected by the file extension. -/
def save_weights (ext : String) (updated_embs : Tensor) (save_dtype : Option (Int → Int)) :
    WeightFile :=
  let casted := applyDtype save_dtype updated_embs
  if ext = safetensorsExt then
    ⟨ext, some (.safetensorsArchive [(embParamsKey, casted)])⟩
  else
    ⟨ext, some (.torchSerialized (.pdict [(embParamsKey, .tensor casted)]))⟩

/-- The error kinds raised as `ValueError` for an invalid weight file, as
opposed to the missing-file error. -/
def isInvalidWeightFileErr : LoadErr → Bool
  | .notDict => true
  | .notTensor => true
  | _ => false

/-! ## Token registration -/

/-- Fuel-bounded little-endian decimal digit extraction. -/
def decDigitsGo : Nat → Nat → List Nat
  | 0, _ => []
  | fuel + 1, n => if n = 0 then [] else n % 10 :: decDigitsGo fuel (n / 10)

/-- The little-endian decimal digits of n (empty for 0). -/
def decDigits (n : Nat) : List Nat := decDigitsGo n n

/-- Python `str(n)` for a natural number: its decimal representation,
rendering the digits most-significant first. -/
def decStr (n : Nat) : String :=
  if n = 0 then "0" else String.mk (((decDigits n).map Nat.digitChar).reverse)

/-- The valuation of a little-endian digit list, inverse of `decDigits`. -/
def ofDec : List Nat → Nat
  | [] => 0
  | d :: ds => d + 10 * ofDec ds

/-- The K token strings built in `train`:
`[args.token_string] + [f"{args.token_string}{i+1}" for i in range(K - 1)]`. -/
def tokenStrings (token_string : String) (K : Nat) : List String :=
  token_string :: (List.range (K - 1)).map (fun i => token_string ++ decStr (i + 1))

/-- `tokenizer.add_tokens(ts)`: append each string not already present to
the vocabulary (ids are positions), skipping strings already in it,
left to right. -/
def addTokens (vocab : List String) (ts : List String) : List String :=
  ts.foldl (fun v t => if t ∈ v then v else v ++ [t]) vocab

/-- `tokenizer.convert_tokens_to_ids(ts)`: the position of each string in
the vocabulary. -/
def convertTokensToIds (vocab ts : List String) : List Nat :=
  ts.map (fun t => vocab.indexOf t)

/-- The token registration block of `train`: build the K token strings, add
them to the tokenizer, and enforce the
`num_added_tokens == args.num_vectors_per_token` assertion; on success
return the extended vocabulary and the ids of the K strings. -/
def addNewTokens (vocab : List String) (token_string : String) (K : Nat) :
    Except RegErr (List String × List Nat) :=
  let strs := tokenStrings token_string K
  let vocab2 := addTokens vocab strs
  if vocab2.length - vocab.length = K then
    .ok (vocab2, convertTokensToIds vocab2 strs)
  else
    .error .tokenConflict

/-- `text_encoder.resize_token_embeddings(n)`: keep the first n rows and pad
with fresh rows (whose default initialization is irrelevant here) up to n. -/
def resize_token_embeddings (M : List Row) (n : Nat) (newRow : Row) : List Row :=
  M.take n ++ List.replicate (n - M.length) newRow

/-! ## Initializer-word embedding copy -/

/-- The body of
`for i, token_id in enumerate(token_ids): token_embeds[token_id] =
token_embeds[init_token_ids[i % len(init_token_ids)]]`, with the running
enumeration index threaded through. -/
def initEmbedsGo (init_token_ids : List Nat) : List Row → List Nat → Nat → List Row
  | M, [], _ => M
  | M, tid :: rest, i =>
    initEmbedsGo init_token_ids
      (M.set tid (M.getD (init_token_ids.getD (i % init_token_ids.length) 0) []))
      rest (i + 1)

/-- The initializer-word copy loop of `train`, starting the enumeration at
index 0. -/
def initEmbeds (token_embeds : List Row) (token_ids init_token_ids : List Nat) : List Row :=
  initEmbedsGo init_token_ids token_embeds token_ids 0

/-! ## Embedding guard -/

/-- The per-step restore
`weight[index_no_updates] = orig_embeds_params[index_no_updates]` with
`index_no_updates = torch.arange(len(tokenizer)) < token_ids[0]`: every row
with index below the first new token id is overwritten with the snapshot
row. -/
def guardRestore (orig live : List Row) (base : Nat) : List Row :=
  (List.range live.length).map
    (fun r => if r < base then orig.getD r [] else live.getD r [])

/-- n iterations of the training loop body acting on the embedding matrix:
each iteration lets the optimizer step perturb the whole matrix (an arbitrary
update function) and then runs the guard restore against the snapshot `orig`
taken before the loop started. -/
def applyTrainSteps (stepFn : Nat → List Row → List Row) (orig : List Row) (base : Nat) :
    Nat → List Row
  | 0 => orig
  | n + 1 => guardRestore orig (stepFn n (applyTrainSteps stepFn orig base n)) base

/-! ## Training loop step counters -/

/-- One epoch of the batch loop, given the number of remaining batches, the
current global step and the configured maximum: each batch performs an
optimization step, increments the global step, and then breaks out of the
batch loop when `global_step >= args.max_train_steps`.  Returns the global
step after the epoch. -/
def runEpoch : Nat → Nat → Nat → Nat
  | 0, g, _ => g
  | nb + 1, g, maxSteps => if maxSteps ≤ g + 1 then g + 1 else runEpoch nb (g + 1) maxSteps

/-- The outer epoch loop: run the given number of epochs, each over b
batches, threading the global step through. -/
def runEpochs : Nat → Nat → Nat → Nat → Nat
  | 0, _, g, _ => g
  | e + 1, b, g, maxSteps => runEpochs e b (runEpoch b g maxSteps) maxSteps

/-- `num_train_epochs = math.ceil(args.max_train_steps /
num_update_steps_per_epoch)` with one update step per batch (gradient
accumulation of 1), so `num_update_steps_per_epoch = b` batches. -/
def numTrainEpochs (b maxSteps : Nat) : Nat := (maxSteps + b - 1) / b

/-- The total number of optimization steps a run performs: the epoch loop
from global step 0 over `numTrainEpochs` epochs. -/
def totalOptSteps (b maxSteps : Nat) : Nat :=
  runEpochs (numTrainEpochs b maxSteps) b 0 maxSteps

/-! ## Witness inputs -/

/-- An example optimizer-step perturbation used by witnesses: it shifts every
entry of every row, so it visibly perturbs frozen rows before the guard
restores them. -/
def exStep : Nat → List Row → List Row :=
  fun _ M => M.map (fun row => row.map (fun x => x + 1))

/-- An example tensor of shape [1, 1] used by witnesses. -/
def tEx : Tensor := ⟨[1, 1], [7]⟩

/-- A tensor stored directly under the key "string_to_param", refuting the
claim that the key name is never inspected. -/
def c10Tensor : Tensor := ⟨[1, 1], [5]⟩

/-- The weight file whose payload maps "string_to_param" directly to a
tensor. -/
def c10File : WeightFile :=
  ⟨"emb.pt", some (.torchSerialized (.pdict [(stringToParamKey, .tensor c10Tensor)]))⟩

end TextualInversion

namespace TextualInversion

/-! ## Helper lemmas -/

lemma applyDtype_shape (dt : Option (Int → Int)) (t : Tensor) :
    (applyDtype dt t).shape = t.shape := by
  cases dt <;> rfl

lemma embParamsKey_ne : (embParamsKey == stringToParamKey) = false := by decide

lemma stringToParamKey_ne_emb : (stringToParamKey == embParamsKey) = false := by decide

lemma stringToParamKey_beq_self : (stringToParamKey == stringToParamKey) = true := by decide

lemma ofDec_decDigitsGo : ∀ (fuel n : Nat), n ≤ fuel → ofDec (decDigitsGo fuel n) = n := by
  intro fuel
  induction fuel with
  | zero => intro n hn; interval_cases n; rfl
  | succ f ih =>
    intro n hn
    by_cases h0 : n = 0
    · subst h0; simp [decDigitsGo, ofDec]
    · have hdiv : n / 10 ≤ f := by
        have : n / 10 < n := Nat.div_lt_self (Nat.pos_of_ne_zero h0) (by omega)
        omega
      simp only [decDigitsGo, h0, if_false, ofDec]
      rw [ih _ hdiv]
      omega

lemma ofDec_decDigits (n : Nat) : ofDec (decDigits n) = n :=
  ofDec_decDigitsGo n n le_rfl

lemma decDigits_inj {a b : Nat} (h : decDigits a = decDigits b) : a = b := by
  have ha := ofDec_decDigits a
  have hb := ofDec_decDigits b
  rw [h] at ha
  omega

lemma decDigitsGo_lt_ten : ∀ (fuel n d : Nat), d ∈ decDigitsGo fuel n → d < 10 := by
  intro fuel
  induction fuel with
  | zero => intro n d hd; simp [decDigitsGo] at hd
  | succ f ih =>
    intro n d hd
    by_cases h0 : n = 0
    · subst h0; simp [decDigitsGo] at hd
    · simp only [decDigitsGo, h0, if_false, List.mem_cons] at hd
      rcases hd with h | h
      · subst h; exact Nat.mod_lt _ (by omega)
      · exact ih _ _ h

lemma digitChar_inj_lt {a b : Nat} (ha : a < 10) (hb : b < 10)
    (h : Nat.digitChar a = Nat.digitChar b) : a = b := by
  interval_cases a <;> interval_cases b <;> first | rfl | (exact absurd h (by decide))

lemma map_digitChar_inj : ∀ (l₁ l₂ : List Nat), (∀ d ∈ l₁, d < 10) → (∀ d ∈ l₂, d < 10) →
    l₁.map Nat.digitChar = l₂.map Nat.digitChar → l₁ = l₂ := by
  intro l₁
  induction l₁ with
  | nil => intro l₂ _ _ h; cases l₂ with
    | nil => rfl
    | cons b t => simp at h
  | cons a t ih =>
    intro l₂ h1 h2 h
    cases l₂ with
    | nil => simp at h
    | cons b t2 =>
      simp only [List.map_cons, List.cons.injEq] at h
      have hab : a = b :=
        digitChar_inj_lt (h1 a (by simp)) (h2 b (by simp)) h.1
      have ht : t = t2 := ih t2 (fun d hd => h1 d (by simp [hd])) (fun d hd => h2 d (by simp [hd])) h.2
      rw [hab, ht]

lemma decStr_inj_pos {a b : Nat} (ha : 0 < a) (hb : 0 < b) (h : decStr a = decStr b) : a = b := by
  unfold decStr at h
  rw [if_neg (by omega), if_neg (by omega)] at h
  have hd := congrArg String.data h
  simp only [String.data] at hd
  have hrev := List.reverse_injective hd
  have hmap := map_digitChar_inj _ _ (fun d hd => decDigitsGo_lt_ten _ _ _ hd)
    (fun d hd => decDigitsGo_lt_ten _ _ _ hd) hrev
  exact decDigits_inj hmap

lemma decStr_length_pos (n : Nat) (hn : 0 < n) : 0 < (decStr n).length := by
  unfold decStr
  rw [if_neg (by omega)]
  show 0 < (String.mk _).length
  simp only [String.length]
  simp only [List.length_reverse, List.length_map]
  unfold decDigits
  cases n with
  | zero => omega
  | succ m =>
    simp [decDigitsGo]

lemma tokenStrings_nodup (ts : String) (K : Nat) : (tokenStrings ts K).Nodup := by
  unfold tokenStrings
  rw [List.nodup_cons]
  constructor
  · intro hmem
    simp only [List.mem_map, List.mem_range] at hmem
    obtain ⟨i, _, hi⟩ := hmem
    have hlen := congrArg String.length hi
    rw [String.length_append] at hlen
    have := decStr_length_pos (i + 1) (by omega)
    omega
  · apply List.Nodup.map_on
    · intro i hi j hj hij
      have hd := congrArg String.data hij
      rw [String.data_append, String.data_append] at hd
      have := List.append_cancel_left hd
      have hs : decStr (i + 1) = decStr (j + 1) := String.ext this
      have := decStr_inj_pos (by omega) (by omega) hs
      omega
    · exact List.nodup_range _

lemma tokenStrings_length (ts : String) (K : Nat) (hK : 1 ≤ K) :
    (tokenStrings ts K).length = K := by
  simp [tokenStrings]
  omega

lemma addTokens_cons (v : List String) (a : String) (t : List String) :
    addTokens v (a :: t) = addTokens (if a ∈ v then v else v ++ [a]) t := rfl

lemma addTokens_fresh : ∀ (l v : List String), l.Nodup → (∀ s ∈ l, s ∉ v) →
    addTokens v l = v ++ l := by
  intro l
  induction l with
  | nil => intro v _ _; simp [addTokens]
  | cons a t ih =>
    intro v hnd hf
    rw [addTokens_cons, if_neg (hf a (by simp))]
    rw [List.nodup_cons] at hnd
    rw [ih (v ++ [a]) hnd.2]
    · simp
    · intro s hs
      simp only [List.mem_append, List.mem_singleton]
      rintro (h | h)
      · exact hf s (by simp [hs]) h
      · subst h; exact hnd.1 hs

lemma mem_addTokens : ∀ (l v : List String) (x : String), x ∈ v → x ∈ addTokens v l := by
  intro l
  induction l with
  | nil => intro v x hx; exact hx
  | cons a t ih =>
    intro v x hx
    rw [addTokens_cons]
    apply ih
    by_cases h : a ∈ v <;> simp [h, hx]

lemma addTokens_length_ge : ∀ (l v : List String), v.length ≤ (addTokens v l).length := by
  intro l
  induction l with
  | nil => intro v; exact le_rfl
  | cons a t ih =>
    intro v
    rw [addTokens_cons]
    by_cases h : a ∈ v
    · simpa [h] using ih v
    · calc v.length ≤ (v ++ [a]).length := by simp
        _ ≤ _ := by simpa [h] using ih (v ++ [a])

lemma addTokens_length_le : ∀ (l v : List String), (addTokens v l).length ≤ v.length + l.length := by
  intro l
  induction l with
  | nil => intro v; simp [addTokens]
  | cons a t ih =>
    intro v
    rw [addTokens_cons]
    by_cases h : a ∈ v
    · simp only [h, if_true]
      calc (addTokens v t).length ≤ v.length + t.length := ih v
        _ ≤ v.length + (a :: t).length := by simp only [List.length_cons]; omega
    · simp only [h, if_false]
      calc (addTokens (v ++ [a]) t).length ≤ (v ++ [a]).length + t.length := ih _
        _ = v.length + (a :: t).length := by
            simp only [List.length_append, List.length_cons, List.length_nil]
            omega

lemma addTokens_length_lt : ∀ (l v : List String), (∃ x ∈ l, x ∈ v) →
    (addTokens v l).length < v.length + l.length := by
  intro l
  induction l with
  | nil => intro v h; simp at h
  | cons a t ih =>
    intro v hex
    rw [addTokens_cons]
    by_cases h : a ∈ v
    · simp only [h, if_true]
      calc (addTokens v t).length ≤ v.length + t.length := addTokens_length_le t v
        _ < v.length + (a :: t).length := by simp
    · simp only [h, if_false]
      obtain ⟨x, hxl, hxv⟩ := hex
      have hxt : x ∈ t := by
        rcases List.mem_cons.mp hxl with h1 | h1
        · subst h1; exact absurd hxv h
        · exact h1
      have : (addTokens (v ++ [a]) t).length < (v ++ [a]).length + t.length :=
        ih (v ++ [a]) ⟨x, hxt, by simp [hxv]⟩
      simp only [List.length_append, List.length_singleton] at this
      simp only [List.length_cons]
      omega

lemma indexOf_append_self {a : String} : ∀ (v : List String), a ∉ v → ∀ (rest : List String),
    (v ++ a :: rest).indexOf a = v.length := by
  intro v
  induction v with
  | nil => intro _ rest; simp
  | cons x xs ih =>
    intro ha rest
    have hxa : x ≠ a := by
      intro h; exact ha (by simp [h])
    rw [List.cons_append]
    rw [List.indexOf_cons_ne _ hxa]
    rw [ih (fun h => ha (by simp [h])) rest]
    simp

lemma convert_spec : ∀ (l v : List String), l.Nodup → (∀ s ∈ l, s ∉ v) →
    convertTokensToIds (v ++ l) l = List.range' v.length l.length := by
  intro l
  induction l with
  | nil => intro v _ _; simp [convertTokensToIds]
  | cons a t ih =>
    intro v hnd hf
    rw [List.nodup_cons] at hnd
    have hfresh2 : ∀ s ∈ t, s ∉ v ++ [a] := by
      intro s hs
      simp only [List.mem_append, List.mem_singleton]
      rintro (h | h)
      · exact hf s (by simp [hs]) h
      · subst h; exact hnd.1 hs
    have step : convertTokensToIds ((v ++ [a]) ++ t) t = List.range' (v ++ [a]).length t.length :=
      ih (v ++ [a]) hnd.2 hfresh2
    unfold convertTokensToIds at step ⊢
    rw [List.map_cons]
    have h1 : (v ++ a :: t).indexOf a = v.length := indexOf_append_self v (hf a (by simp)) t
    have h2 : v ++ a :: t = (v ++ [a]) ++ t := by simp
    rw [h1, List.length_cons, List.range'_succ]
    congr 1
    rw [h2]
    convert step using 2
    simp

lemma resize_length (M : List Row) (n : Nat) (r : Row) :
    (resize_token_embeddings M n r).length = n := by
  simp only [resize_token_embeddings, List.length_append, List.length_take,
    List.length_replicate]
  omega

lemma getD_set_ne (l : List Row) (i j : Nat) (a : Row) (h : i ≠ j) :
    (l.set i a).getD j [] = l.getD j [] := by
  simp [List.getD_eq_getElem?_getD, List.getElem?_set_ne h]

lemma getD_set_self (l : List Row) (i : Nat) (a : Row) (h : i < l.length) :
    (l.set i a).getD i [] = a := by
  simp [List.getD_eq_getElem?_getD, List.getElem?_set_self, h]

lemma initEmbedsGo_spec (init_ids : List Nat) (base : Nat)
    (hinit : ∀ x ∈ init_ids, x < base) (hne : init_ids ≠ []) (M0 : List Row) :
    ∀ (k j : Nat) (M : List Row),
      M.length = M0.length →
      base + j + k ≤ M.length →
      (∀ r, r < base → M.getD r [] = M0.getD r []) →
      (initEmbedsGo init_ids M (List.range' (base + j) k) j).length = M.length ∧
      (∀ r, r < base + j →
        (initEmbedsGo init_ids M (List.range' (base + j) k) j).getD r [] = M.getD r []) ∧
      (∀ i, i < k →
        (initEmbedsGo init_ids M (List.range' (base + j) k) j).getD (base + j + i) []
          = M0.getD (init_ids.getD ((j + i) % init_ids.length) 0) []) := by
  intro k
  induction k with
  | zero =>
    intro j M _ _ _
    refine ⟨rfl, fun r _ => rfl, fun i hi => absurd hi (by omega)⟩
  | succ k ih =>
    intro j M hlen hbound hfroz
    have hidx : init_ids.getD (j % init_ids.length) 0 ∈ init_ids := by
      rw [List.getD_eq_getElem _ _ (Nat.mod_lt _ (List.length_pos.mpr hne))]
      exact List.getElem_mem _
    have hidxlt : init_ids.getD (j % init_ids.length) 0 < base := hinit _ hidx
    have hrange : List.range' (base + j) (k + 1) = (base + j) :: List.range' (base + j + 1) k :=
      List.range'_succ _ _ _
    set v := M.getD (init_ids.getD (j % init_ids.length) 0) [] with hv
    have hvM0 : v = M0.getD (init_ids.getD (j % init_ids.length) 0) [] :=
      hfroz _ hidxlt
    set M1 := M.set (base + j) v with hM1
    have hM1len : M1.length = M.length := List.length_set M _ v
    have hstep : initEmbedsGo init_ids M (List.range' (base + j) (k + 1)) j
        = initEmbedsGo init_ids M1 (List.range' (base + (j + 1)) k) (j + 1) := by
      rw [hrange]
      rfl
    have hfroz1 : ∀ r, r < base → M1.getD r [] = M0.getD r [] := by
      intro r hr
      rw [hM1, getD_set_ne _ _ _ _ (by omega)]
      exact hfroz r hr
    have hrec := ih (j + 1) M1 (by omega) (by omega) hfroz1
    refine ⟨?_, ?_, ?_⟩
    · rw [hstep, hrec.1, hM1len]
    · intro r hr
      rw [hstep, hrec.2.1 r (by omega), hM1, getD_set_ne _ _ _ _ (by omega)]
    · intro i hi
      cases i with
      | zero =>
        rw [hstep]
        have h0 : base + j + 0 < base + (j + 1) := by omega
        rw [hrec.2.1 _ h0]
        show M1.getD (base + j) [] = _
        rw [hM1, getD_set_self _ _ _ (by omega)]
        exact hvM0
      | succ i2 =>
        rw [hstep]
        have hmain := hrec.2.2 i2 (by omega)
        rw [show base + j + (i2 + 1) = base + (j + 1) + i2 from by omega,
          show j + (i2 + 1) = j + 1 + i2 from by omega]
        exact hmain

lemma guardRestore_length (orig live : List Row) (base : Nat) :
    (guardRestore orig live base).length = live.length := by
  simp [guardRestore]

lemma guardRestore_getD (orig live : List Row) (base r : Nat) (hr : r < live.length) :
    (guardRestore orig live base).getD r []
      = if r < base then orig.getD r [] else live.getD r [] := by
  unfold guardRestore
  rw [List.getD_eq_getElem _ _ (by simpa using hr)]
  rw [List.getElem_map]
  simp

lemma runEpoch_spec : ∀ (nb g maxSteps : Nat), g < maxSteps →
    runEpoch nb g maxSteps = min (g + nb) maxSteps := by
  intro nb
  induction nb with
  | zero => intro g m h; simp [runEpoch]; omega
  | succ nb ih =>
    intro g m h
    show (if m ≤ g + 1 then g + 1 else runEpoch nb (g + 1) m) = min (g + (nb + 1)) m
    by_cases hc : m ≤ g + 1
    · rw [if_pos hc]; omega
    · rw [if_neg hc, ih (g + 1) m (by omega)]; omega

lemma runEpochs_reach (b : Nat) (hb : 1 ≤ b) :
    ∀ (e g maxSteps : Nat), g < maxSteps →
      maxSteps ≤ g + e * b → g + (e - 1) * b < maxSteps →
      runEpochs e b g maxSteps = maxSteps := by
  intro e
  induction e with
  | zero => intro g m h1 h2 _; simp at h2; omega
  | succ e ih =>
    intro g m h1 h2 h3
    have hsm : (e + 1) * b = e * b + b := Nat.succ_mul e b
    show runEpochs e b (runEpoch b g m) m = m
    rcases Nat.eq_zero_or_pos e with he | he
    · subst he
      show runEpoch b g m = m
      rw [runEpoch_spec b g m h1]
      omega
    · have hble : b ≤ e * b := Nat.le_mul_of_pos_left b he
      have hpred : (e + 1 - 1) * b = e * b := by simp
      rw [hpred] at h3
      have hlt : g + b < m := by omega
      rw [runEpoch_spec b g m h1, show min (g + b) m = g + b from by omega]
      apply ih (g + b) m hlt
      · omega
      · have : (e - 1) * b + b = e * b := by
          conv_rhs => rw [← Nat.succ_pred_eq_of_pos he]
          rw [Nat.succ_mul]
          rfl
        omega

end TextualInversion

namespace TextualInversion

/-! ## Claim theorems -/

/-- C1: after every guarded training-loop iteration (optimizer step followed
by the embedding-guard restore), every row index outside the trainable block
[base, base+K-1] of the live embedding matrix equals the corresponding row of
the snapshot taken before the loop started, for an arbitrary per-step
perturbation of the whole matrix. -/
theorem embedding_guard_frozen_rows (stepFn : Nat → List Row → List Row)
    (orig : List Row) (base K : Nat)
    (hlen : orig.length = base + K)
    (hstep : ∀ i M, (stepFn i M).length = M.length) (n : Nat) :
    (applyTrainSteps stepFn orig base n).length = base + K ∧
    ∀ r, r < base ∨ base + K ≤ r →
      (applyTrainSteps stepFn orig base n).getD r [] = orig.getD r [] := by
  induction n with
  | zero => exact ⟨hlen, fun r _ => rfl⟩
  | succ n ih =>
    have hl : (stepFn n (applyTrainSteps stepFn orig base n)).length = base + K := by
      rw [hstep]
      exact ih.1
    constructor
    · show (guardRestore orig _ base).length = base + K
      rw [guardRestore_length, hl]
    · intro r hr
      show (guardRestore orig (stepFn n (applyTrainSteps stepFn orig base n)) base).getD r []
        = orig.getD r []
      rcases hr with hr | hr
      · rw [guardRestore_getD _ _ _ _ (by omega), if_pos hr]
      · rw [List.getD_eq_default _ _ (by rw [guardRestore_length, hl]; omega),
          List.getD_eq_default _ _ (by omega)]

/-- Witness for C1 at two rows, base 1, K 1, 3 steps, frozen row 0. -/
theorem embedding_guard_frozen_rows_witness :
    (applyTrainSteps exStep [[0], [5]] 1 3).getD 0 [] = ([[0], [5]] : List Row).getD 0 [] :=
  (embedding_guard_frozen_rows exStep [[0], [5]] 1 1 rfl
    (fun i M => by simp [exStep]) 3).2 0 (Or.inl (by decide))

/-- C5: when an initializer word encodes to M ≥ 1 token ids, every newly
added embedding row i in [0, K-1] (row token_ids[i] = base + i) is set to the
embedding row of initializer token id init_token_ids[i mod M], read from the
matrix as it was before the copy loop (cyclic reuse when M < K). -/
theorem init_word_cyclic_copy (M : List Row) (base K : Nat) (init_ids : List Nat)
    (hlen : M.length = base + K)
    (hinit : ∀ x ∈ init_ids, x < base)
    (hne : init_ids ≠ []) :
    ∀ i, i < K → (initEmbeds M (List.range' base K) init_ids).getD (base + i) []
      = M.getD (init_ids.getD (i % init_ids.length) 0) [] := by
  intro i hi
  have h := initEmbedsGo_spec init_ids base hinit hne M K 0 M rfl (by omega)
    (fun r _ => rfl)
  have hmain := h.2.2 i hi
  simpa [initEmbeds] using hmain

/-- Witness for C5 at base 2, K 2, one initializer id, target row index 1. -/
theorem init_word_cyclic_copy_witness :
    (initEmbeds [[10], [20], [0], [0]] (List.range' 2 2) [1]).getD (2 + 1) []
      = ([[10], [20], [0], [0]] : List Row).getD ([1].getD (1 % ([1] : List Nat).length) 0) [] :=
  init_word_cyclic_copy [[10], [20], [0], [0]] 2 2 [1] rfl (by decide) (by decide) 1 (by decide)

/-- C6: the global step is compared against the configured maximum after
every batch; with num_train_epochs = ceil(maxSteps / b) epochs of b batches
each, the run performs exactly maxSteps optimization steps — once the counter
reaches the maximum, no further optimization step executes in the run. -/
theorem early_stop_total_steps (b maxSteps : Nat) (hb : 1 ≤ b) (hm : 1 ≤ maxSteps) :
    totalOptSteps b maxSteps = maxSteps := by
  unfold totalOptSteps numTrainEpochs
  have hdm := Nat.div_add_mod (maxSteps + b - 1) b
  have hmod : (maxSteps + b - 1) % b < b := Nat.mod_lt _ (by omega)
  have hcm : b * ((maxSteps + b - 1) / b) = ((maxSteps + b - 1) / b) * b := Nat.mul_comm _ _
  apply runEpochs_reach b hb ((maxSteps + b - 1) / b) 0 maxSteps (by omega)
  · omega
  · rcases Nat.eq_zero_or_pos ((maxSteps + b - 1) / b) with hz | hp
    · rw [hz]; simpa using hm
    · have : ((maxSteps + b - 1) / b - 1) * b + b = ((maxSteps + b - 1) / b) * b := by
        conv_rhs => rw [← Nat.succ_pred_eq_of_pos hp]
        rw [Nat.succ_mul]
        rfl
      omega

/-- Witness for C6: 10 batches per epoch and max 3 steps give exactly 3
optimization steps. -/
theorem early_stop_total_steps_witness :
    totalOptSteps 10 3 = 3 :=
  early_stop_total_steps 10 3 (by decide) (by decide)

/-- C3: for every K ≥ 1, registering the K generated token strings on a
tokenizer of vocabulary size V, when none of them already exists, succeeds
and yields token ids that are contiguous, ascending and exactly
{V, ..., V+K-1} (the list `range' V K`), and the resized embedding matrix's
row count equals the new vocabulary size V + K. -/
theorem register_tokens_contiguous_ids (vocab : List String) (p : String) (K : Nat)
    (M : List Row) (newRow : Row) (hK : 1 ≤ K)
    (hfresh : ∀ s ∈ tokenStrings p K, s ∉ vocab) :
    addNewTokens vocab p K
      = .ok (vocab ++ tokenStrings p K, List.range' vocab.length K) ∧
    (resize_token_embeddings M (vocab ++ tokenStrings p K).length newRow).length
      = vocab.length + K := by
  have hnd := tokenStrings_nodup p K
  have hlen := tokenStrings_length p K hK
  have hadd := addTokens_fresh (tokenStrings p K) vocab hnd hfresh
  constructor
  · simp only [addNewTokens]
    rw [hadd]
    rw [if_pos (by simp only [List.length_append, hlen]; omega)]
    rw [convert_spec (tokenStrings p K) vocab hnd hfresh, hlen]
  · rw [resize_length, List.length_append, hlen]

/-- C4 counterexample: with vocabulary ["t1"], token string "t" and K = 2,
the string "t1" already exists; registration fails fatally with the
token-conflict error, but the vocabulary size is NOT left unchanged: the
non-conflicting string "t" was already added before the assertion fired. -/
theorem register_conflict_vocab_changed_cex :
    addNewTokens [("t1")] ("t") 2 = .error .tokenConflict ∧
    (addTokens [("t1")] (tokenStrings ("t") 2)).length ≠ ([("t1")] : List String).length := by
  refine ⟨rfl, by decide⟩

/-- C4 amended: if any of the K ≥ 1 generated token strings already exists
in the vocabulary, registration fails fatally with the token-conflict error;
the vocabulary does not shrink and grows by at most K - 1 entries (the
non-conflicting strings are still added before the assertion fires). -/
theorem register_conflict_fatal (vocab : List String) (p : String) (K : Nat)
    (hK : 1 ≤ K) (hconf : ∃ s ∈ tokenStrings p K, s ∈ vocab) :
    addNewTokens vocab p K = .error .tokenConflict ∧
    vocab.length ≤ (addTokens vocab (tokenStrings p K)).length ∧
    (addTokens vocab (tokenStrings p K)).length < vocab.length + K := by
  have hlen := tokenStrings_length p K hK
  have hlt := addTokens_length_lt (tokenStrings p K) vocab hconf
  rw [hlen] at hlt
  have hge := addTokens_length_ge (tokenStrings p K) vocab
  refine ⟨?_, hge, hlt⟩
  simp only [addNewTokens]
  rw [if_neg (by omega)]

/-- Witness for C4's amended claim at vocabulary ["t1"], token string "t",
K = 2. -/
theorem register_conflict_fatal_witness :
    addNewTokens [("t1")] ("t") 2 = .error .tokenConflict ∧
    ([("t1")] : List String).length ≤ (addTokens [("t1")] (tokenStrings ("t") 2)).length ∧
    (addTokens [("t1")] (tokenStrings ("t") 2)).length < ([("t1")] : List String).length + 2 :=
  register_conflict_fatal [("t1")] ("t") 2 (by decide) ⟨("t1"), by decide, by decide⟩

/-- Witness for C3 at vocabulary ["a"], token string "t", K = 2. -/
theorem register_tokens_contiguous_ids_witness :
    addNewTokens [("a")] ("t") 2
      = .ok ([("a")] ++ tokenStrings ("t") 2, List.range' ([("a")] : List String).length 2) ∧
    (resize_token_embeddings [[0], [0]] (([("a")] : List String) ++ tokenStrings ("t") 2).length [0]).length
      = ([("a")] : List String).length + 2 :=
  register_tokens_contiguous_ids [("a")] ("t") 2 [[0], [0]] [0] (by decide) (by decide)

/-- C2: for every K ≥ 1 and D ≥ 1 and every tensor t of shape [K, D],
`load_weights` after `save_weights` returns a tensor bit-for-bit equal to t
cast to the save dtype (t unchanged when the dtype is none), for both the
`.safetensors` extension and any other extension. -/
theorem save_load_roundtrip (ext : String) (K D : Nat) (t : Tensor)
    (dt : Option (Int → Int)) (hK : 1 ≤ K) (hD : 1 ≤ D) (hshape : t.shape = [K, D]) :
    load_weights (save_weights ext t dt) = .ok (applyDtype dt t) := by
  have hsh : (applyDtype dt t).shape = [K, D] := by rw [applyDtype_shape, hshape]
  by_cases h : ext = safetensorsExt
  · simp [save_weights, load_weights, h, takeFirstTensor, pyValues, promoteRank1, hsh]
  · simp [save_weights, load_weights, h, takeFirstTensor, extractLegacy,
      List.lookup, stringToParamKey_ne_emb, pyValues, promoteRank1, hsh]

/-- Witness for C2 at ext "w.pt", K = D = 1, dtype none. -/
theorem save_load_roundtrip_witness :
    load_weights (save_weights ("w.pt") tEx none) = .ok (applyDtype none tEx) :=
  save_load_roundtrip ("w.pt") 1 1 tEx none (by decide) (by decide) rfl

/-- C7: `load_weights` on a missing file fails with the missing-file error;
on a payload that is not a mapping it fails with the not-a-dict error; on a
mapping whose first value is not a tensor (and that has no legacy nesting
key) it fails with the not-a-tensor error; the latter two are the
invalid-weight-file kind, distinguishable from the missing-file kind. -/
theorem load_malformed_error_kinds (ext k : String) (obj v : PyObj)
    (rest : List (String × PyObj))
    (hx : ext ≠ safetensorsExt)
    (hobj : ∀ es, obj ≠ PyObj.pdict es)
    (hns : ((k, v) :: rest).lookup stringToParamKey = none)
    (hv : ∀ t, v ≠ PyObj.tensor t) :
    load_weights ⟨ext, none⟩ = .error .fileNotFound ∧
    load_weights ⟨ext, some (.torchSerialized obj)⟩ = .error .notDict ∧
    load_weights ⟨ext, some (.torchSerialized (.pdict ((k, v) :: rest)))⟩
      = .error .notTensor ∧
    isInvalidWeightFileErr .notDict = true ∧
    isInvalidWeightFileErr .notTensor = true ∧
    isInvalidWeightFileErr .fileNotFound = false := by
  refine ⟨rfl, ?_, ?_, rfl, rfl, rfl⟩
  · cases obj with
    | pdict es => exact absurd rfl (hobj es)
    | tensor t => simp [load_weights, hx]
    | paramContainer ps => simp [load_weights, hx]
    | otherObj => simp [load_weights, hx]
  · cases v with
    | tensor t => exact absurd rfl (hv t)
    | pdict es => simp [load_weights, hx, extractLegacy, hns, takeFirstTensor, pyValues]
    | paramContainer ps => simp [load_weights, hx, extractLegacy, hns, takeFirstTensor, pyValues]
    | otherObj => simp [load_weights, hx, extractLegacy, hns, takeFirstTensor, pyValues]

/-- Witness for C7 at ext "w.pt", an opaque payload object, and a mapping
whose single value is a non-tensor object. -/
theorem load_malformed_error_kinds_witness :
    load_weights ⟨("w.pt"), none⟩ = .error .fileNotFound ∧
    load_weights ⟨("w.pt"), some (.torchSerialized PyObj.otherObj)⟩ = .error .notDict ∧
    load_weights ⟨("w.pt"), some (.torchSerialized (.pdict
      [(embParamsKey, PyObj.otherObj)]))⟩ = .error .notTensor ∧
    isInvalidWeightFileErr .notDict = true ∧
    isInvalidWeightFileErr .notTensor = true ∧
    isInvalidWeightFileErr .fileNotFound = false :=
  load_malformed_error_kinds ("w.pt") embParamsKey PyObj.otherObj PyObj.otherObj []
    (by decide) (fun es h => PyObj.noConfusion h) rfl (fun t h => PyObj.noConfusion h)

/-- C8: `load_weights` on a legacy (non-safetensors) file whose payload nests
the tensor dictionary under the key "string_to_param", with one tensor of
shape [K, D] as the nested value, returns that tensor unchanged. -/
theorem load_legacy_nested (ext key : String) (K D : Nat) (t : Tensor)
    (hx : ext ≠ safetensorsExt) (hshape : t.shape = [K, D]) :
    load_weights ⟨ext, some (.torchSerialized (.pdict
      [(stringToParamKey, .pdict [(key, .tensor t)])]))⟩ = .ok t := by
  simp [load_weights, hx, extractLegacy, List.lookup, takeFirstTensor, pyValues,
    promoteRank1, hshape]

/-- Witness for C8 at ext "w.pt" and a tensor of shape [2, 1]. -/
theorem load_legacy_nested_witness :
    load_weights ⟨("w.pt"), some (.torchSerialized (.pdict
      [(stringToParamKey, .pdict [(embParamsKey, .tensor ⟨[2, 1], [1, 2]⟩)])]))⟩
      = .ok ⟨[2, 1], [1, 2]⟩ :=
  load_legacy_nested ("w.pt") embParamsKey 2 1 ⟨[2, 1], [1, 2]⟩ (by decide) rfl

/-- C9: `load_weights` on a file whose stored tensor is rank-1 of length D
returns a rank-2 tensor of shape [1, D], in both the torch branch and the
safetensors branch. -/
theorem load_rank1_promotion (ext key : String) (D : Nat) (xs : List Int)
    (hx : ext ≠ safetensorsExt) (hD : 1 ≤ D)
    (hkey : (stringToParamKey == key) = false) :
    load_weights ⟨ext, some (.torchSerialized (.pdict [(key, .tensor ⟨[D], xs⟩)]))⟩
      = .ok ⟨[1, D], xs⟩ ∧
    load_weights ⟨safetensorsExt, some (.safetensorsArchive [(key, ⟨[D], xs⟩)])⟩
      = .ok ⟨[1, D], xs⟩ := by
  constructor
  · simp [load_weights, hx, extractLegacy, List.lookup, hkey, takeFirstTensor,
      pyValues, promoteRank1]
  · simp [load_weights, safetensorsExt, takeFirstTensor, pyValues, promoteRank1]

/-- Witness for C9 at ext "w.pt", key "emb_params", D = 3. -/
theorem load_rank1_promotion_witness :
    load_weights ⟨("w.pt"), some (.torchSerialized (.pdict
      [(embParamsKey, .tensor ⟨[3], [1, 2, 3]⟩)]))⟩ = .ok ⟨[1, 3], [1, 2, 3]⟩ ∧
    load_weights ⟨safetensorsExt, some (.safetensorsArchive
      [(embParamsKey, ⟨[3], [1, 2, 3]⟩)])⟩ = .ok ⟨[1, 3], [1, 2, 3]⟩ :=
  load_rank1_promotion ("w.pt") embParamsKey 3 [1, 2, 3] (by decide) (by decide) (by decide)

/-- C10 counterexample: a non-empty mapping payload whose first (and only)
value is a tensor, stored under the key "string_to_param", does not load
successfully: `load_weights` descends into the legacy branch, ends up calling
values() on the tensor itself, and fails — it does not return the first
value. -/
theorem load_key_name_cex :
    load_weights c10File = .error .noValuesMethod ∧
    load_weights c10File ≠ .ok (promoteRank1 c10Tensor) := by
  refine ⟨rfl, ?_⟩
  intro h
  rw [show load_weights c10File = .error .noValuesMethod from rfl] at h
  exact Except.noConfusion h

/-- C10 amended: for every non-empty mapping payload that does not contain
the key "string_to_param", `load_weights` returns the first value in the
mapping's iteration order (promoted if rank-1) regardless of its key name. -/
theorem load_first_value_no_legacy_key (ext k : String) (v : PyObj)
    (rest : List (String × PyObj)) (t : Tensor)
    (hx : ext ≠ safetensorsExt)
    (hns : ((k, v) :: rest).lookup stringToParamKey = none)
    (hv : v = PyObj.tensor t) :
    load_weights ⟨ext, some (.torchSerialized (.pdict ((k, v) :: rest)))⟩
      = .ok (promoteRank1 t) := by
  subst hv
  simp [load_weights, hx, extractLegacy, hns, takeFirstTensor, pyValues]

/-- Witness for C10's amended claim at ext "w.pt" and key "foo". -/
theorem load_first_value_no_legacy_key_witness :
    load_weights ⟨("w.pt"), some (.torchSerialized (.pdict
      [(("foo"), PyObj.tensor tEx)]))⟩ = .ok (promoteRank1 tEx) :=
  load_first_value_no_legacy_key ("w.pt") ("foo") (PyObj.tensor tEx) [] tEx
    (by decide) rfl rfl

end TextualInversion
